import Mathlib

/-!
Verification of the identity/family resolution engine of `clean.py`
(bayesimpact/sf-homelessness).

The development shallowly embeds the pipeline of `get_client_family_ids` and
its helpers: record tables become lists of rows, the `networkx` undirected
graph becomes a `Graph` structure (node list plus edge list, with set
semantics for the vertex set), `nx.connected_components` becomes
`componentsList` (an edge-folding merge algorithm; the claims only depend on
the components forming a deterministic partition compatible with
connectivity, which is proved below), and pandas operations (`dropna`,
`drop_duplicates`, `merge`, dict-built `Series`, `groupby/transform(any)`)
become the corresponding list operations.
-/

set_option maxHeartbeats 1000000

namespace Clean

/-- Source tag of a raw identifier: `'h'` (HMIS) or `'c'` (Connecting Point). -/
inductive Tag where
  | h : Tag
  | c : Tag
deriving DecidableEq, Repr

/-- A graph vertex, as in `clean.py`: a pair `(c, id)` where `c` is the
source tag and `id` the raw per-source identifier. -/
abbrev Node : Type := Tag × Nat

/-- Embedding of the `networkx.Graph` object as used by `clean.py`: a node
list and an undirected edge list.  The node list may contain duplicates;
every use below is via membership or `dedup`, i.e. set semantics. -/
structure Graph where
  nodes : List Node
  edges : List (Node × Node)
deriving DecidableEq, Repr

namespace Graph

/-- `nx.Graph()`. -/
def empty : Graph := ⟨[], []⟩

/-- `G.add_nodes_from(ns)`. -/
def add_nodes_from (G : Graph) (ns : List Node) : Graph :=
  ⟨G.nodes ++ ns, G.edges⟩

/-- `G.add_edges_from(es)`: adds the edges and (as `networkx` does) makes
sure every endpoint is a vertex. -/
def add_edges_from (G : Graph) (es : List (Node × Node)) : Graph :=
  ⟨G.nodes ++ es.map Prod.fst ++ es.map Prod.snd, G.edges ++ es⟩

/-- `G.copy()`.  In the pure embedding a copy is the graph itself; the
original can never be mutated. -/
def copy (G : Graph) : Graph := G

/-- Well-formedness: every edge endpoint is a vertex.  This holds for every
graph `clean.py` builds, because `add_edges_from` inserts endpoints. -/
def WF (G : Graph) : Prop := ∀ e ∈ G.edges, e.1 ∈ G.nodes ∧ e.2 ∈ G.nodes

end Graph

/-- Undirected adjacency induced by an edge list. -/
def Adj (es : List (Node × Node)) (u v : Node) : Prop :=
  (u, v) ∈ es ∨ (v, u) ∈ es

/-- Connectivity: existence of a path of edges (reflexive-transitive
closure of adjacency). -/
def Conn (es : List (Node × Node)) : Node → Node → Prop :=
  Relation.ReflTransGen (Adj es)

theorem adj_symm {es : List (Node × Node)} {u v : Node} (h : Adj es u v) : Adj es v u :=
  h.symm

theorem conn_refl (es : List (Node × Node)) (u : Node) : Conn es u u :=
  Relation.ReflTransGen.refl

theorem conn_symm {es : List (Node × Node)} {u v : Node} (h : Conn es u v) : Conn es v u :=
  Relation.ReflTransGen.symmetric (fun _ _ hadj => adj_symm hadj) h

theorem conn_trans {es : List (Node × Node)} {u v w : Node}
    (h1 : Conn es u v) (h2 : Conn es v w) : Conn es u w :=
  Relation.ReflTransGen.trans h1 h2

theorem conn_mono {es es' : List (Node × Node)} (hsub : ∀ e ∈ es, e ∈ es')
    {u v : Node} (h : Conn es u v) : Conn es' u v :=
  Relation.ReflTransGen.mono (fun _ _ hadj => hadj.imp (hsub _) (hsub _)) h

/-- Dropping self-loop edges does not change connectivity. -/
theorem conn_filter_selfloops (es : List (Node × Node)) (u v : Node) :
    Conn es u v ↔ Conn (es.filter (fun e => decide (e.1 ≠ e.2))) u v := by
  constructor
  · intro h
    induction h with
    | refl => exact conn_refl _ _
    | @tail b c _hab hbc ih =>
      by_cases hbc' : b = c
      · exact hbc' ▸ ih
      · refine Relation.ReflTransGen.tail ih ?_
        rcases hbc with hmem | hmem
        · exact Or.inl (List.mem_filter.mpr ⟨hmem, by simpa using hbc'⟩)
        · exact Or.inr (List.mem_filter.mpr ⟨hmem, by simp; exact fun hc => hbc' hc.symm⟩)
  · exact conn_mono (fun e he => (List.mem_filter.mp he).1)

/-! ### Connected components

`nx.connected_components` is embedded as `componentsList`: start from
singleton components of the (deduplicated) vertex list and fold over the
edge list, merging the components touched by each edge.  The claims depend
only on the result being one fixed list per graph that partitions the
vertex set compatibly with connectivity; all of that is proved below. -/

/-- Merge all components touched by the edge `(u, v)` into one. -/
def mergeComps (u v : Node) (comps : List (List Node)) : List (List Node) :=
  (comps.filter (fun c => decide (u ∈ c ∨ v ∈ c))).flatten ::
    comps.filter (fun c => !(decide (u ∈ c ∨ v ∈ c)))

/-- Connected components of a graph, as a list of components. -/
def componentsList (G : Graph) : List (List Node) :=
  G.edges.foldl (fun comps e => mergeComps e.1 e.2 comps)
    (G.nodes.dedup.map (fun v => [v]))

/-- `x` is covered by some component of `comps`. -/
def MemComps (comps : List (List Node)) (x : Node) : Prop :=
  ∃ c ∈ comps, x ∈ c

/-- `x` and `y` lie in one common component of `comps`. -/
def SameComp (comps : List (List Node)) (x y : Node) : Prop :=
  ∃ c ∈ comps, x ∈ c ∧ y ∈ c

/-- The components are pairwise disjoint. -/
def CompsDisjoint (comps : List (List Node)) : Prop :=
  comps.Pairwise (fun c d => ∀ x, x ∈ c → x ∉ d)

/-- Every component is internally connected (w.r.t. edge list `es`). -/
def CompsConn (es : List (Node × Node)) (comps : List (List Node)) : Prop :=
  ∀ c ∈ comps, ∀ x ∈ c, ∀ y ∈ c, Conn es x y

theorem mergeComps_memComps (u v : Node) (comps : List (List Node)) (x : Node) :
    MemComps (mergeComps u v comps) x ↔ MemComps comps x := by
  unfold MemComps mergeComps
  constructor
  · rintro ⟨c, hc, hx⟩
    rcases List.mem_cons.mp hc with rfl | hc
    · rcases List.mem_flatten.mp hx with ⟨d, hd, hxd⟩
      exact ⟨d, (List.mem_filter.mp hd).1, hxd⟩
    · exact ⟨c, (List.mem_filter.mp hc).1, hx⟩
  · rintro ⟨c, hc, hx⟩
    by_cases htouch : u ∈ c ∨ v ∈ c
    · refine ⟨_, List.mem_cons_self _ _, ?_⟩
      exact List.mem_flatten.mpr ⟨c, List.mem_filter.mpr ⟨hc, by simpa using htouch⟩, hx⟩
    · exact ⟨c, List.mem_cons_of_mem _ (List.mem_filter.mpr ⟨hc, by simpa using htouch⟩), hx⟩

theorem mergeComps_disjoint (u v : Node) {comps : List (List Node)}
    (h : CompsDisjoint comps) : CompsDisjoint (mergeComps u v comps) := by
  unfold CompsDisjoint mergeComps
  have hsymm : Symmetric (fun c d : List Node => ∀ x, x ∈ c → x ∉ d) := by
    intro c d hcd x hxd hxc
    exact hcd x hxc hxd
  refine List.Pairwise.cons ?_ (h.sublist (List.filter_sublist _))
  intro d hd x hx
  rcases List.mem_flatten.mp hx with ⟨c, hc, hxc⟩
  have hc' := List.mem_filter.mp hc
  have hd' := List.mem_filter.mp hd
  have hne : c ≠ d := by
    intro hcd
    subst hcd
    have h1 : decide (u ∈ c ∨ v ∈ c) = true := hc'.2
    have h2 : (!decide (u ∈ c ∨ v ∈ c)) = true := hd'.2
    simp [h1] at h2
  exact List.Pairwise.forall hsymm h hc'.1 hd'.1 hne x hxc

theorem mergeComps_conn {es : List (Node × Node)} {u v : Node} {comps : List (List Node)}
    (hadj : Adj es u v) (h : CompsConn es comps) : CompsConn es (mergeComps u v comps) := by
  unfold CompsConn mergeComps
  intro c hc x hx y hy
  rcases List.mem_cons.mp hc with rfl | hc
  · rcases List.mem_flatten.mp hx with ⟨cx, hcx, hxcx⟩
    rcases List.mem_flatten.mp hy with ⟨cy, hcy, hycy⟩
    have hcx' := List.mem_filter.mp hcx
    have hcy' := List.mem_filter.mp hcy
    have htx : u ∈ cx ∨ v ∈ cx := by simpa using hcx'.2
    have hty : u ∈ cy ∨ v ∈ cy := by simpa using hcy'.2
    have huv : Conn es u v := Relation.ReflTransGen.single hadj
    have hxu : Conn es x u ∨ Conn es x v := by
      rcases htx with ht | ht
      · exact Or.inl (h cx hcx'.1 x hxcx u ht)
      · exact Or.inr (h cx hcx'.1 x hxcx v ht)
    have hys : Conn es u y ∨ Conn es v y := by
      rcases hty with ht | ht
      · exact Or.inl (h cy hcy'.1 u ht y hycy)
      · exact Or.inr (h cy hcy'.1 v ht y hycy)
    rcases hxu with hx1 | hx1 <;> rcases hys with hy1 | hy1
    · exact conn_trans hx1 hy1
    · exact conn_trans hx1 (conn_trans huv hy1)
    · exact conn_trans hx1 (conn_trans (conn_symm huv) hy1)
    · exact conn_trans hx1 hy1
  · exact h c (List.mem_filter.mp hc).1 x hx y hy

theorem mergeComps_sameComp (u v : Node) {comps : List (List Node)} {x y : Node}
    (h : SameComp comps x y) : SameComp (mergeComps u v comps) x y := by
  rcases h with ⟨c, hc, hx, hy⟩
  by_cases htouch : u ∈ c ∨ v ∈ c
  · refine ⟨_, List.mem_cons_self _ _, ?_, ?_⟩
    · exact List.mem_flatten.mpr ⟨c, List.mem_filter.mpr ⟨hc, by simpa using htouch⟩, hx⟩
    · exact List.mem_flatten.mpr ⟨c, List.mem_filter.mpr ⟨hc, by simpa using htouch⟩, hy⟩
  · exact ⟨c, List.mem_cons_of_mem _ (List.mem_filter.mpr ⟨hc, by simpa using htouch⟩), hx, hy⟩

theorem mergeComps_covers (u v : Node) {comps : List (List Node)}
    (hu : MemComps comps u) (hv : MemComps comps v) :
    SameComp (mergeComps u v comps) u v := by
  rcases hu with ⟨cu, hcu, hucu⟩
  rcases hv with ⟨cv, hcv, hvcv⟩
  refine ⟨_, List.mem_cons_self _ _, ?_, ?_⟩
  · exact List.mem_flatten.mpr ⟨cu, List.mem_filter.mpr ⟨hcu, by simp [hucu]⟩, hucu⟩
  · exact List.mem_flatten.mpr ⟨cv, List.mem_filter.mpr ⟨hcv, by simp [hvcv]⟩, hvcv⟩

/-- One step of the `componentsList` fold. -/
def foldStep (comps : List (List Node)) (e : Node × Node) : List (List Node) :=
  mergeComps e.1 e.2 comps

theorem foldl_memComps (es : List (Node × Node)) (comps : List (List Node)) (x : Node) :
    MemComps (es.foldl foldStep comps) x ↔ MemComps comps x := by
  induction es generalizing comps with
  | nil => exact Iff.rfl
  | cons e es ih =>
    rw [List.foldl_cons]
    exact (ih _).trans (mergeComps_memComps e.1 e.2 comps x)

theorem foldl_disjoint (es : List (Node × Node)) {comps : List (List Node)}
    (h : CompsDisjoint comps) : CompsDisjoint (es.foldl foldStep comps) := by
  induction es generalizing comps with
  | nil => exact h
  | cons e es ih =>
    rw [List.foldl_cons]
    exact ih (mergeComps_disjoint e.1 e.2 h)

theorem foldl_conn {allE : List (Node × Node)} (es : List (Node × Node))
    {comps : List (List Node)} (hsub : ∀ e ∈ es, e ∈ allE)
    (h : CompsConn allE comps) : CompsConn allE (es.foldl foldStep comps) := by
  induction es generalizing comps with
  | nil => exact h
  | cons e es ih =>
    rw [List.foldl_cons]
    exact ih (fun e' he' => hsub e' (List.mem_cons_of_mem _ he'))
      (mergeComps_conn (Or.inl (hsub e (List.mem_cons_self _ _))) h)

theorem foldl_sameComp (es : List (Node × Node)) {comps : List (List Node)} {x y : Node}
    (h : SameComp comps x y) : SameComp (es.foldl foldStep comps) x y := by
  induction es generalizing comps with
  | nil => exact h
  | cons e es ih =>
    rw [List.foldl_cons]
    exact ih (mergeComps_sameComp e.1 e.2 h)

theorem foldl_edges_sameComp (es : List (Node × Node)) {comps : List (List Node)}
    (hcov : ∀ e ∈ es, MemComps comps e.1 ∧ MemComps comps e.2) :
    ∀ e ∈ es, SameComp (es.foldl foldStep comps) e.1 e.2 := by
  induction es generalizing comps with
  | nil => intro e he; exact absurd he (List.not_mem_nil _)
  | cons e es ih =>
    intro e' he'
    rw [List.foldl_cons]
    rcases List.mem_cons.mp he' with rfl | he'
    · refine foldl_sameComp es ?_
      have hc := hcov e' (List.mem_cons_self _ _)
      exact mergeComps_covers e'.1 e'.2 hc.1 hc.2
    · refine ih (fun f hf => ?_) e' he'
      have hc := hcov f (List.mem_cons_of_mem _ hf)
      exact ⟨(mergeComps_memComps e.1 e.2 comps f.1).mpr hc.1,
        (mergeComps_memComps e.1 e.2 comps f.2).mpr hc.2⟩

/-- The components of a graph cover exactly its vertex set. -/
theorem componentsList_cover (G : Graph) (x : Node) :
    MemComps (componentsList G) x ↔ x ∈ G.nodes := by
  unfold componentsList
  have hfold := foldl_memComps G.edges (G.nodes.dedup.map (fun v => [v])) x
  rw [show (fun comps (e : Node × Node) => mergeComps e.1 e.2 comps) = foldStep from rfl]
  rw [hfold]
  unfold MemComps
  constructor
  · rintro ⟨c, hc, hx⟩
    rcases List.mem_map.mp hc with ⟨v, hv, rfl⟩
    rcases List.mem_singleton.mp hx with rfl
    exact List.mem_dedup.mp hv
  · intro hx
    exact ⟨[x], List.mem_map.mpr ⟨x, List.mem_dedup.mpr hx, rfl⟩, List.mem_singleton.mpr rfl⟩

/-- The components of a graph are pairwise disjoint. -/
theorem componentsList_disjoint (G : Graph) : CompsDisjoint (componentsList G) := by
  unfold componentsList
  rw [show (fun comps (e : Node × Node) => mergeComps e.1 e.2 comps) = foldStep from rfl]
  refine foldl_disjoint G.edges ?_
  unfold CompsDisjoint
  rw [List.pairwise_map]
  refine List.Pairwise.imp ?_ (List.nodup_dedup G.nodes)
  intro a b hab x hxa hxb
  rcases List.mem_singleton.mp hxa with rfl
  exact hab (List.mem_singleton.mp hxb)

/-- Soundness: any two members of one component are connected. -/
theorem componentsList_sound (G : Graph) : CompsConn G.edges (componentsList G) := by
  unfold componentsList
  rw [show (fun comps (e : Node × Node) => mergeComps e.1 e.2 comps) = foldStep from rfl]
  refine foldl_conn G.edges (fun e he => he) ?_
  intro c hc x hx y hy
  rcases List.mem_map.mp hc with ⟨v, _hv, rfl⟩
  rcases List.mem_singleton.mp hx with rfl
  rcases List.mem_singleton.mp hy with rfl
  exact conn_refl _ _

theorem componentsList_edges_sameComp (G : Graph) (hWF : G.WF) :
    ∀ e ∈ G.edges, SameComp (componentsList G) e.1 e.2 := by
  unfold componentsList
  rw [show (fun comps (e : Node × Node) => mergeComps e.1 e.2 comps) = foldStep from rfl]
  refine foldl_edges_sameComp G.edges ?_
  intro e he
  have h := hWF e he
  constructor
  · rcases h.1 with h1
    exact ⟨[e.1], List.mem_map.mpr ⟨e.1, List.mem_dedup.mpr h1, rfl⟩, List.mem_singleton.mpr rfl⟩
  · rcases h.2 with h2
    exact ⟨[e.2], List.mem_map.mpr ⟨e.2, List.mem_dedup.mpr h2, rfl⟩, List.mem_singleton.mpr rfl⟩

/-- In a pairwise-disjoint component list, sharing a component is transitive. -/
theorem sameComp_trans {comps : List (List Node)} (hdisj : CompsDisjoint comps)
    {x y z : Node} (h1 : SameComp comps x y) (h2 : SameComp comps y z) :
    SameComp comps x z := by
  rcases h1 with ⟨c, hc, hxc, hyc⟩
  rcases h2 with ⟨d, hd, hyd, hzd⟩
  have hsymm : Symmetric (fun c d : List Node => ∀ x, x ∈ c → x ∉ d) := by
    intro c d hcd x hxd hxc
    exact hcd x hxc hxd
  by_cases hcd : c = d
  · exact ⟨c, hc, hxc, hcd ▸ hzd⟩
  · exact absurd hyd (List.Pairwise.forall hsymm hdisj hc hd hcd y hyc)

theorem sameComp_symm {comps : List (List Node)} {x y : Node}
    (h : SameComp comps x y) : SameComp comps y x := by
  rcases h with ⟨c, hc, hx, hy⟩
  exact ⟨c, hc, hy, hx⟩

/-- Completeness: connected vertices land in a common component. -/
theorem componentsList_complete (G : Graph) (hWF : G.WF) {x y : Node}
    (hx : x ∈ G.nodes) (hconn : Conn G.edges x y) :
    SameComp (componentsList G) x y := by
  induction hconn with
  | refl =>
    rcases (componentsList_cover G x).mpr hx with ⟨c, hc, hxc⟩
    exact ⟨c, hc, hxc, hxc⟩
  | @tail b c _hab hbc ih =>
    refine sameComp_trans (componentsList_disjoint G) ih ?_
    rcases hbc with hmem | hmem
    · exact componentsList_edges_sameComp G hWF (b, c) hmem
    · exact sameComp_symm (componentsList_edges_sameComp G hWF (c, b) hmem)

/-- A vertex with no incident edge forms a singleton component. -/
theorem componentsList_isolated (G : Graph) (x : Node) (hx : x ∈ G.nodes)
    (hiso : ∀ e ∈ G.edges, e.1 ≠ x ∧ e.2 ≠ x) :
    ∃ c ∈ componentsList G, x ∈ c ∧ ∀ y ∈ c, y = x := by
  rcases (componentsList_cover G x).mpr hx with ⟨c, hc, hxc⟩
  refine ⟨c, hc, hxc, ?_⟩
  intro y hyc
  have hconn : Conn G.edges x y := componentsList_sound G c hc x hxc y hyc
  have : ∀ z, Conn G.edges x z → z = x := by
    intro z hz
    induction hz with
    | refl => rfl
    | @tail b c _hab hbc ih =>
      subst ih
      rcases hbc with hmem | hmem
      · exact absurd rfl ((hiso _ hmem).1)
      · exact absurd rfl ((hiso _ hmem).2)
  exact this y hconn

/-! ### Edge generation from tabular evidence (`group_edges`, `matching_edges`) -/

/-- Pandas `drop_duplicates`: keep the first occurrence of each element. -/
def dropDuplicates {α : Type} [DecidableEq α] (l : List α) : List α :=
  l.foldl (fun acc a => if a ∈ acc then acc else acc ++ [a]) []

theorem foldl_dropDuplicates_mem {α : Type} [DecidableEq α] (l : List α)
    (acc : List α) (a : α) :
    a ∈ l.foldl (fun acc a => if a ∈ acc then acc else acc ++ [a]) acc ↔
      a ∈ acc ∨ a ∈ l := by
  induction l generalizing acc with
  | nil => simp
  | cons b l ih =>
    rw [List.foldl_cons, ih]
    by_cases hb : b ∈ acc
    · simp only [if_pos hb]
      constructor
      · rintro (h | h)
        · exact Or.inl h
        · exact Or.inr (List.mem_cons_of_mem _ h)
      · rintro (h | h)
        · exact Or.inl h
        · rcases List.mem_cons.mp h with rfl | h
          · exact Or.inl hb
          · exact Or.inr h
    · simp only [if_neg hb, List.mem_append, List.mem_singleton, List.mem_cons]
      tauto

theorem mem_dropDuplicates {α : Type} [DecidableEq α] (l : List α) (a : α) :
    a ∈ dropDuplicates l ↔ a ∈ l := by
  unfold dropDuplicates
  rw [foldl_dropDuplicates_mem]
  simp

/-- `df[group_ids+[individual_id]].dropna().drop_duplicates()` of
`group_edges`: a row survives iff its grouping key (the tuple of the
`group_ids` columns, `none` when any of them is missing) and its individual
id are both present; then exact duplicate (key, id) rows are dropped.  `K`
is the type of the grouping-key tuple. -/
def cleaned_groups {K : Type} [DecidableEq K]
    (df : List (Option K × Option Nat)) : List (K × Nat) :=
  dropDuplicates (df.filterMap (fun r =>
    match r with
    | (some k, some i) => some (k, i)
    | _ => none))

/-- `group_edges(node_prefix, df, group_ids, individual_id)` from `clean.py`:
after cleaning, the self-merge on the grouping key yields every ordered pair
of individual ids sharing a key, each tagged with the source tag. -/
def group_edges {K : Type} [DecidableEq K] (tag : Tag)
    (df : List (Option K × Option Nat)) : List (Node × Node) :=
  let groups := cleaned_groups df
  groups.flatMap (fun p =>
    (groups.filter (fun q => decide (q.1 = p.1))).map
      (fun q => ((tag, p.2), (tag, q.2))))

theorem mem_cleaned_groups {K : Type} [DecidableEq K]
    (df : List (Option K × Option Nat)) (k : K) (i : Nat) :
    (k, i) ∈ cleaned_groups df ↔ (some k, some i) ∈ df := by
  unfold cleaned_groups
  rw [mem_dropDuplicates, List.mem_filterMap]
  constructor
  · rintro ⟨⟨ok, oi⟩, hmem, heq⟩
    match ok, oi, heq with
    | some k', some i', heq =>
      simp only [Option.some.injEq, Prod.mk.injEq] at heq
      obtain ⟨rfl, rfl⟩ := heq
      exact hmem
  · intro hmem
    exact ⟨(some k, some i), hmem, rfl⟩

/-- Membership characterisation of the `group_edges` edge list. -/
theorem mem_group_edges {K : Type} [DecidableEq K] (tag : Tag)
    (df : List (Option K × Option Nat)) (e : Node × Node) :
    e ∈ group_edges tag df ↔
      ∃ k x y, (k, x) ∈ cleaned_groups df ∧ (k, y) ∈ cleaned_groups df ∧
        e = ((tag, x), (tag, y)) := by
  unfold group_edges
  rw [List.mem_flatMap]
  constructor
  · rintro ⟨p, hp, hmem⟩
    rcases List.mem_map.mp hmem with ⟨q, hq, rfl⟩
    have hq' := List.mem_filter.mp hq
    have hkey : q.1 = p.1 := by simpa using hq'.2
    exact ⟨p.1, p.2, q.2, hp, by rw [← hkey]; exact hq'.1, rfl⟩
  · rintro ⟨k, x, y, hx, hy, rfl⟩
    refine ⟨(k, x), hx, List.mem_map.mpr ⟨(k, y), ?_, rfl⟩⟩
    exact List.mem_filter.mpr ⟨hy, by simp⟩

/-- A row of the cross-source match CSV (`cp_hmis_match_results.csv`):
the `clientid` column (source C), the `Subject Unique Identifier` column
(source H), and the values of whatever other columns the CSV has.
`matching.dropna()` in `clean.py` runs before the two id columns are
selected, so it inspects every column. -/
structure MRow where
  clientid : Option Nat
  subjectId : Option Nat
  others : List (Option Int)
deriving DecidableEq, Repr

/-- `matching_edges()` from `clean.py`: drop rows with any missing value,
then one edge `(('c', clientid), ('h', subject))` per remaining row. -/
def matching_edges (matching : List MRow) : List (Node × Node) :=
  (matching.filter (fun r =>
      r.clientid.isSome && r.subjectId.isSome && r.others.all Option.isSome)).map
    (fun r => ((Tag.c, r.clientid.getD 0), (Tag.h, r.subjectId.getD 0)))

/-- Membership characterisation of the `matching_edges` edge list. -/
theorem mem_matching_edges (matching : List MRow) (e : Node × Node) :
    e ∈ matching_edges matching ↔
      ∃ r ∈ matching, ∃ cid sid, r.clientid = some cid ∧ r.subjectId = some sid ∧
        r.others.all Option.isSome = true ∧ e = ((Tag.c, cid), (Tag.h, sid)) := by
  unfold matching_edges
  rw [List.mem_map]
  constructor
  · rintro ⟨r, hr, rfl⟩
    have hr' := List.mem_filter.mp hr
    have hb := hr'.2
    simp only [Bool.and_eq_true] at hb
    rcases Option.isSome_iff_exists.mp hb.1.1 with ⟨cid, hcid⟩
    rcases Option.isSome_iff_exists.mp hb.1.2 with ⟨sid, hsid⟩
    exact ⟨r, hr'.1, cid, sid, hcid, hsid, hb.2, by rw [hcid, hsid]; rfl⟩
  · rintro ⟨r, hr, cid, sid, hcid, hsid, hoth, rfl⟩
    refine ⟨r, List.mem_filter.mpr ⟨hr, ?_⟩, by rw [hcid, hsid]; rfl⟩
    simp [hcid, hsid, hoth]

/-! ### Component projection and label materialisation -/

/-- `get_ids_from_nodes(node_prefix, nodes)` from `clean.py`. -/
def get_ids_from_nodes (tag : Tag) (nodes : List Node) : List Nat :=
  (nodes.filter (fun p => decide (p.1 = tag))).map (fun p => p.2)

theorem mem_get_ids_from_nodes (tag : Tag) (nodes : List Node) (i : Nat) :
    i ∈ get_ids_from_nodes tag nodes ↔ (tag, i) ∈ nodes := by
  unfold get_ids_from_nodes
  rw [List.mem_map]
  constructor
  · rintro ⟨⟨t, j⟩, hp, rfl⟩
    have hp' := List.mem_filter.mp hp
    have : t = tag := by simpa using hp'.2
    subst this
    exact hp'.1
  · intro hmem
    exact ⟨(tag, i), List.mem_filter.mpr ⟨hmem, by simp⟩, rfl⟩

/-- The key/value pairs generated by the Python dict comprehension
`{id: idx for idx, ids in enumerate(grouped_ids) for id in ids}`, in
generation order, starting the enumeration at `k0`. -/
def groupPairs (grouped_ids : List (List Nat)) (k0 : Nat) : List (Nat × Nat) :=
  match grouped_ids with
  | [] => []
  | g :: rest => g.map (fun i => (i, k0)) ++ groupPairs rest (k0 + 1)

/-- A Python dict built by inserting the pairs in order: a later binding of
the same key silently overwrites an earlier one. -/
def dictOfPairs (ps : List (Nat × Nat)) : Nat → Option Nat :=
  ps.foldl (fun m p => fun j => if j = p.1 then some p.2 else m j) (fun _ => none)

/-- `create_dataframe_from_grouped_ids(grouped_ids, col)` from `clean.py`,
as the id → label mapping of its single-column dataframe (the index of the
`pd.Series` is unique by dict construction, so the dataframe *is* this
mapping). -/
def create_dataframe_from_grouped_ids (grouped_ids : List (List Nat)) :
    Nat → Option Nat :=
  dictOfPairs (groupPairs grouped_ids 0)

theorem dictOfPairs_foldl (ps : List (Nat × Nat)) (m : Nat → Option Nat) (i : Nat) :
    ps.foldl (fun m p => fun j => if j = p.1 then some p.2 else m j) m i =
      match dictOfPairs ps i with
      | some v => some v
      | none => m i := by
  induction ps generalizing m with
  | nil => rfl
  | cons p ps ih =>
    rw [List.foldl_cons]
    unfold dictOfPairs
    rw [List.foldl_cons, ih, ih]
    by_cases hi : i = p.1
    · cases hfold : (dictOfPairs ps i) <;> simp [dictOfPairs, hfold, hi]
    · cases hfold : (dictOfPairs ps i) <;> simp [dictOfPairs, hfold, hi]

theorem dictOfPairs_append (ps qs : List (Nat × Nat)) (i : Nat) :
    dictOfPairs (ps ++ qs) i =
      match dictOfPairs qs i with
      | some v => some v
      | none => dictOfPairs ps i := by
  unfold dictOfPairs
  rw [List.foldl_append]
  exact dictOfPairs_foldl qs _ i

theorem dictOfPairs_eq_none (ps : List (Nat × Nat)) (i : Nat)
    (h : ∀ v, (i, v) ∉ ps) : dictOfPairs ps i = none := by
  induction ps with
  | nil => rfl
  | cons p ps ih =>
    have hrest : ∀ v, (i, v) ∉ ps := fun v hv => h v (List.mem_cons_of_mem _ hv)
    have hd : i ≠ p.1 := by
      intro hi
      exact h p.2 (by rw [hi]; exact List.mem_cons_self _ _)
    unfold dictOfPairs
    rw [List.foldl_cons, dictOfPairs_foldl, ih hrest]
    simp [hd]

theorem dictOfPairs_eq_some (ps : List (Nat × Nat)) (i v : Nat)
    (hmem : (i, v) ∈ ps) (huniq : ∀ w, (i, w) ∈ ps → w = v) :
    dictOfPairs ps i = some v := by
  induction ps with
  | nil => exact absurd hmem (List.not_mem_nil _)
  | cons p ps ih =>
    unfold dictOfPairs
    rw [List.foldl_cons, dictOfPairs_foldl]
    by_cases hrest : ∃ w, (i, w) ∈ ps
    · rcases hrest with ⟨w, hw⟩
      have hwv : w = v := huniq w (List.mem_cons_of_mem _ hw)
      subst hwv
      rw [ih hw (fun w' hw' => huniq w' (List.mem_cons_of_mem _ hw'))]
    · have hnone : dictOfPairs ps i = none :=
        dictOfPairs_eq_none ps i (fun w hw => hrest ⟨w, hw⟩)
      rw [hnone]
      rcases List.mem_cons.mp hmem with heq | hmem'
      · have : i = p.1 ∧ v = p.2 := by
          constructor <;> [exact congrArg Prod.fst heq; exact congrArg Prod.snd heq]
        simp [this.1, ← this.2]
      · exact absurd hmem' (fun h => hrest ⟨v, h⟩)

theorem mem_groupPairs (grouped_ids : List (List Nat)) (k0 i v : Nat) :
    (i, v) ∈ groupPairs grouped_ids k0 ↔
      ∃ j, ∃ hj : j < grouped_ids.length,
        v = k0 + j ∧ i ∈ grouped_ids.get ⟨j, hj⟩ := by
  induction grouped_ids generalizing k0 with
  | nil => simp [groupPairs]
  | cons g rest ih =>
    unfold groupPairs
    rw [List.mem_append, ih]
    constructor
    · rintro (h | ⟨j, hj, rfl, hmem⟩)
      · rcases List.mem_map.mp h with ⟨i', hi', heq⟩
        have h1 : i' = i := congrArg Prod.fst heq
        have h2 : k0 = v := congrArg Prod.snd heq
        subst h1; subst h2
        exact ⟨0, Nat.succ_pos _, (Nat.add_zero k0).symm, hi'⟩
      · exact ⟨j + 1, Nat.succ_lt_succ hj, by omega, hmem⟩
    · rintro ⟨j, hj, rfl, hmem⟩
      cases j with
      | zero =>
        refine Or.inl (List.mem_map.mpr ⟨i, hmem, ?_⟩)
        simp
      | succ j' =>
        exact Or.inr ⟨j', Nat.lt_of_succ_lt_succ hj, by omega, hmem⟩

theorem groupPairs_append_singleton (grouped_ids : List (List Nat)) (g : List Nat)
    (k0 : Nat) :
    groupPairs (grouped_ids ++ [g]) k0 =
      groupPairs grouped_ids k0 ++ g.map (fun i => (i, k0 + grouped_ids.length)) := by
  induction grouped_ids generalizing k0 with
  | nil => simp [groupPairs]
  | cons g' rest ih =>
    show g'.map (fun i => (i, k0)) ++ groupPairs (rest ++ [g]) (k0 + 1) = _
    rw [ih]
    have harith : k0 + 1 + rest.length = k0 + (g' :: rest).length := by
      simp [List.length_cons]
      omega
    rw [harith, ← List.append_assoc]
    rfl

theorem dict_groupPairs_last (grouped_ids : List (List Nat)) (k0 i k : Nat)
    (hk : k < grouped_ids.length) (hmem : i ∈ grouped_ids.get ⟨k, hk⟩)
    (hlast : ∀ j (hj : j < grouped_ids.length), k < j → i ∉ grouped_ids.get ⟨j, hj⟩) :
    dictOfPairs (groupPairs grouped_ids k0) i = some (k0 + k) := by
  induction grouped_ids using List.reverseRecOn generalizing k with
  | nil => exact absurd hk (by simp)
  | append_singleton l g ih =>
    rw [groupPairs_append_singleton, dictOfPairs_append]
    have hlen : (l ++ [g]).length = l.length + 1 := by simp
    by_cases hcase : k < l.length
    · have hig : i ∉ g := by
        have hjlt : l.length < (l ++ [g]).length := by omega
        have := hlast l.length hjlt hcase
        rw [List.get_eq_getElem] at this
        rwa [List.getElem_concat_length l g l.length rfl _] at this
      have hnone : dictOfPairs (g.map (fun i => (i, k0 + l.length))) i = none := by
        refine dictOfPairs_eq_none _ _ ?_
        intro v hv
        rcases List.mem_map.mp hv with ⟨a, ha, heq⟩
        have : a = i := congrArg Prod.fst heq
        exact hig (this ▸ ha)
      rw [hnone]
      have hmem' : i ∈ l.get ⟨k, hcase⟩ := by
        rw [List.get_eq_getElem] at hmem ⊢
        rwa [List.getElem_append_left hcase] at hmem
      refine ih k hcase hmem' ?_
      intro j hj hkj
      have hj' : j < (l ++ [g]).length := by omega
      have := hlast j hj' hkj
      rw [List.get_eq_getElem] at this ⊢
      rwa [List.getElem_append_left hj] at this
    · have hkeq : k = l.length := by omega
      subst hkeq
      have hig : i ∈ g := by
        rw [List.get_eq_getElem] at hmem
        rwa [List.getElem_concat_length l g l.length rfl _] at hmem
      have hsome : dictOfPairs (g.map (fun i => (i, k0 + l.length))) i =
          some (k0 + l.length) := by
        refine dictOfPairs_eq_some _ _ _ (List.mem_map.mpr ⟨i, hig, rfl⟩) ?_
        intro w hw
        rcases List.mem_map.mp hw with ⟨a, _ha, heq⟩
        exact (congrArg Prod.snd heq).symm
      rw [hsome]

/-- The label of an id that appears in group `k` and in no later group:
the dict comprehension keeps the last binding. -/
theorem create_dataframe_last_group (grouped_ids : List (List Nat)) (i k : Nat)
    (hk : k < grouped_ids.length) (hmem : i ∈ grouped_ids.get ⟨k, hk⟩)
    (hlast : ∀ j (hj : j < grouped_ids.length), k < j → i ∉ grouped_ids.get ⟨j, hj⟩) :
    create_dataframe_from_grouped_ids grouped_ids i = some k := by
  unfold create_dataframe_from_grouped_ids
  have := dict_groupPairs_last grouped_ids 0 i k hk hmem hlast
  rwa [Nat.zero_add] at this

/-- The label of an id that appears in exactly one group is that group's
position. -/
theorem create_dataframe_unique_group (grouped_ids : List (List Nat)) (i k : Nat)
    (hk : k < grouped_ids.length) (hmem : i ∈ grouped_ids.get ⟨k, hk⟩)
    (huniq : ∀ j (hj : j < grouped_ids.length), j ≠ k → i ∉ grouped_ids.get ⟨j, hj⟩) :
    create_dataframe_from_grouped_ids grouped_ids i = some k :=
  create_dataframe_last_group grouped_ids i k hk hmem
    (fun j hj hkj => huniq j hj (by omega))

/-- An id appearing in no group maps to `none` (a null label). -/
theorem create_dataframe_not_mem (grouped_ids : List (List Nat)) (i : Nat)
    (h : ∀ g ∈ grouped_ids, i ∉ g) :
    create_dataframe_from_grouped_ids grouped_ids i = none := by
  unfold create_dataframe_from_grouped_ids
  refine dictOfPairs_eq_none _ _ ?_
  intro v hv
  rcases (mem_groupPairs grouped_ids 0 i v).mp hv with ⟨j, hj, _hv, hmem⟩
  exact h _ (List.get_mem _ _ hj) hmem

/-! ### The `get_client_family_ids` pipeline -/

/-- A row of the (merged, date-converted) HMIS record table, restricted to
the columns the resolution engine reads.  `subjectId` is the raw
`Subject Unique Identifier` (renamed to `Raw Subject Unique Identifier` at
the start of `get_client_family_ids`); dates are an abstract `Int`
encoding of the parsed datetimes, `none` for `NaT`. -/
structure HRow where
  subjectId : Nat
  familySite : Option Int
  programStart : Option Int
  dob : Option Int
deriving DecidableEq, Repr

/-- A row of the (merged, date-converted) Connecting Point record table,
restricted to the columns the resolution engine reads.  `clientid` is the
raw `Clientid`. -/
structure CRow where
  clientid : Nat
  caseid : Option Int
  age : Option Int
deriving DecidableEq, Repr

/-- The in-memory tables `get_client_family_ids` consumes: the two record
tables, the two Link Plus duplicate-candidate tables (`Set ID`,
individual-id columns), and the cross-source match table. -/
structure Inputs where
  hmis : List HRow
  cp : List CRow
  hmis_dup : List (Option Nat × Option Nat)
  cp_dup : List (Option Nat × Option Nat)
  matching : List MRow
deriving DecidableEq, Repr

/-- `G_individuals` of `get_client_family_ids`: nodes from both record
tables, then duplicate-link edges for each source, then cross-source
matching edges. -/
def G_individuals (I : Inputs) : Graph :=
  (((Graph.empty.add_nodes_from
        (I.hmis.map (fun r => (Tag.h, r.subjectId)))).add_nodes_from
      (I.cp.map (fun r => (Tag.c, r.clientid)))).add_edges_from
    (group_edges Tag.h I.hmis_dup)).add_edges_from
      (group_edges Tag.c I.cp_dup) |>.add_edges_from (matching_edges I.matching)

/-- The grouping-key tuple `(Family Site Identifier, Program Start Date)`
of an HMIS row; `none` when either column is missing, so that the
three-column `dropna` of `group_edges` is the key-and-id `dropna`. -/
def hmisFamilyKey (r : HRow) : Option (Int × Int) :=
  match r.familySite, r.programStart with
  | some s, some d => some (s, d)
  | _, _ => none

/-- `G_families` of `get_client_family_ids`: a copy of `G_individuals`
plus co-family edges from each record table. -/
def G_families (I : Inputs) : Graph :=
  ((G_individuals I).copy.add_edges_from
      (group_edges Tag.h
        (I.hmis.map (fun r => (hmisFamilyKey r, some r.subjectId))))).add_edges_from
    (group_edges Tag.c (I.cp.map (fun r => (r.caseid, some r.clientid))))

/-- `hmis_individuals`: the H projection of the identity components. -/
def hmis_individuals (I : Inputs) : List (List Nat) :=
  (componentsList (G_individuals I)).map (get_ids_from_nodes Tag.h)

/-- `cp_individuals`: the C projection of the identity components. -/
def cp_individuals (I : Inputs) : List (List Nat) :=
  (componentsList (G_individuals I)).map (get_ids_from_nodes Tag.c)

/-- `hmis_families`: the H projection of the family components. -/
def hmis_families (I : Inputs) : List (List Nat) :=
  (componentsList (G_families I)).map (get_ids_from_nodes Tag.h)

/-- `cp_families`: the C projection of the family components. -/
def cp_families (I : Inputs) : List (List Nat) :=
  (componentsList (G_families I)).map (get_ids_from_nodes Tag.c)

/-- The `Subject Unique Identifier` label column (H individual labels). -/
def hmis_individuals_df (I : Inputs) : Nat → Option Nat :=
  create_dataframe_from_grouped_ids (hmis_individuals I)

/-- The `Family Identifier` label column (H family labels). -/
def hmis_families_df (I : Inputs) : Nat → Option Nat :=
  create_dataframe_from_grouped_ids (hmis_families I)

/-- The `Clientid` label column (C individual labels). -/
def cp_individuals_df (I : Inputs) : Nat → Option Nat :=
  create_dataframe_from_grouped_ids (cp_individuals I)

/-- The `Familyid` label column (C family labels). -/
def cp_families_df (I : Inputs) : Nat → Option Nat :=
  create_dataframe_from_grouped_ids (cp_families I)

/-- An HMIS row after the two label merges: the original row (all
pre-existing columns) plus the merged `Subject Unique Identifier` and
`Family Identifier` label columns. -/
structure HOut where
  row : HRow
  subjectLabel : Option Nat
  familyLabel : Option Nat
deriving DecidableEq, Repr

/-- A Connecting Point row after the two label merges. -/
structure COut where
  row : CRow
  clientidLabel : Option Nat
  familyidLabel : Option Nat
deriving DecidableEq, Repr

/-- The two `hmis.merge(..., left_on='Raw Subject Unique Identifier',
right_index=True, how='left')` calls: a left join against the unique index
of a dict-built label series is a per-row lookup. -/
def merge_hmis_labels (rows : List HRow) (ind fam : Nat → Option Nat) : List HOut :=
  rows.map (fun r => ⟨r, ind r.subjectId, fam r.subjectId⟩)

/-- The two `cp.merge(..., left_on='Raw Clientid', right_index=True,
how='left')` calls. -/
def merge_cp_labels (rows : List CRow) (ind fam : Nat → Option Nat) : List COut :=
  rows.map (fun r => ⟨r, ind r.clientid, fam r.clientid⟩)

/-- `get_client_family_ids`: each record table is left-merged (on its raw
identifier, against the label series' unique index) with its individual
and family label columns. -/
def get_client_family_ids (I : Inputs) : List HOut × List COut :=
  (merge_hmis_labels I.hmis (hmis_individuals_df I) (hmis_families_df I),
   merge_cp_labels I.cp (cp_individuals_df I) (cp_families_df I))

/-! ### Child/adult status -/

/-- `ADULT_AGE = 18`. -/
def ADULT_AGE : Int := 18

/-- `get_hmis_age_entered(row)`: `NaN` when either date is `NaT`,
otherwise `relativedelta(start_date, dob).years`.  The calendar arithmetic
of `dateutil.relativedelta` is external to the repository and is modelled
as an abstract function `ageFn` of the two date encodings. -/
def get_hmis_age_entered (ageFn : Int → Int → Int)
    (startDate dob : Option Int) : Option Int :=
  match startDate, dob with
  | some s, some d => some (ageFn s d)
  | _, _ => none

/-- Pandas `x < ADULT_AGE` on a possibly-`NaN` value: any comparison with
`NaN` is `False`. -/
def ltAdultAge (age : Option Int) : Bool :=
  match age with
  | some a => decide (a < ADULT_AGE)
  | none => false

/-- `hmis_child_status`: adds `Age Entered`, `Child?`, and `Adult?`
(`Adult? = ~Child?`). -/
def hmis_child_status (ageFn : Int → Int → Int) (hmis : List HRow) :
    List (HRow × Option Int × Bool × Bool) :=
  hmis.map (fun r =>
    let age := get_hmis_age_entered ageFn r.programStart r.dob
    (r, age, ltAdultAge age, !ltAdultAge age))

/-- `cp_child_status`: adds `Child?` (`age < ADULT_AGE`) and
`Adult? = ~Child?`. -/
def cp_child_status (cp : List CRow) : List (CRow × Bool × Bool) :=
  cp.map (fun r => (r, ltAdultAge r.age, !ltAdultAge r.age))

/-! ### Family characteristics -/

/-- A row as seen by `generate_family_characteristics`: the grouping-key
tuple (`group_ids` columns), the family label (`family_id` column), and
the `Child?` / `Adult?` booleans. -/
structure FamRow (K L : Type) where
  key : K
  famLabel : L
  childQ : Bool
  adultQ : Bool
deriving DecidableEq, Repr

/-- `df.groupby(group_ids)['Child?'].transform(any)` at row `r`. -/
def withChildCol {K L : Type} [DecidableEq K] (df : List (FamRow K L))
    (r : FamRow K L) : Bool :=
  (df.filter (fun s => decide (s.key = r.key))).any (fun s => s.childQ)

/-- `df.groupby(group_ids)['Adult?'].transform(any)` at row `r`. -/
def withAdultCol {K L : Type} [DecidableEq K] (df : List (FamRow K L))
    (r : FamRow K L) : Bool :=
  (df.filter (fun s => decide (s.key = r.key))).any (fun s => s.adultQ)

/-- `With Family? = With Child? & With Adult?` at row `r`. -/
def withFamilyCol {K L : Type} [DecidableEq K] (df : List (FamRow K L))
    (r : FamRow K L) : Bool :=
  withChildCol df r && withAdultCol df r

/-- `df.groupby(family_id)['With Family?'].transform(any)` at row `r`. -/
def familyCol {K L : Type} [DecidableEq K] [DecidableEq L] (df : List (FamRow K L))
    (r : FamRow K L) : Bool :=
  (df.filter (fun s => decide (s.famLabel = r.famLabel))).any
    (fun s => withFamilyCol df s)

/-- `generate_family_characteristics(df, family_id, group_ids)`: appends
the `With Child?`, `With Adult?`, `With Family?`, and `Family?` columns. -/
def generate_family_characteristics {K L : Type} [DecidableEq K] [DecidableEq L]
    (df : List (FamRow K L)) : List (FamRow K L × Bool × Bool × Bool × Bool) :=
  df.map (fun r => (r, withChildCol df r, withAdultCol df r,
    withFamilyCol df r, familyCol df r))

/-! ### Structural lemmas about the pipeline graphs -/

theorem WF_empty : Graph.empty.WF := by
  intro e he
  exact absurd he (List.not_mem_nil _)

theorem WF_add_nodes_from {G : Graph} (ns : List Node) (h : G.WF) :
    (G.add_nodes_from ns).WF := by
  intro e he
  have h' := h e he
  exact ⟨List.mem_append_left _ h'.1, List.mem_append_left _ h'.2⟩

theorem WF_add_edges_from {G : Graph} (es : List (Node × Node)) (h : G.WF) :
    (G.add_edges_from es).WF := by
  intro e he
  rcases List.mem_append.mp he with hold | hnew
  · have h' := h e hold
    constructor
    · exact List.mem_append_left _ (List.mem_append_left _ h'.1)
    · exact List.mem_append_left _ (List.mem_append_left _ h'.2)
  · constructor
    · exact List.mem_append_left _
        (List.mem_append_right _ (List.mem_map.mpr ⟨e, hnew, rfl⟩))
    · exact List.mem_append_right _ (List.mem_map.mpr ⟨e, hnew, rfl⟩)

theorem G_individuals_WF (I : Inputs) : (G_individuals I).WF :=
  WF_add_edges_from _ (WF_add_edges_from _ (WF_add_edges_from _
    (WF_add_nodes_from _ (WF_add_nodes_from _ WF_empty))))

theorem G_families_WF (I : Inputs) : (G_families I).WF :=
  WF_add_edges_from _ (WF_add_edges_from _ (G_individuals_WF I))

theorem G_individuals_edges_subset (I : Inputs) :
    ∀ e ∈ (G_individuals I).edges, e ∈ (G_families I).edges := by
  intro e he
  exact List.mem_append_left _ (List.mem_append_left _ he)

theorem G_individuals_nodes_subset (I : Inputs) :
    ∀ x ∈ (G_individuals I).nodes, x ∈ (G_families I).nodes := by
  intro x hx
  exact List.mem_append_left _ (List.mem_append_left _
    (List.mem_append_left _ (List.mem_append_left _ hx)))

/-- The label a component's source projection gives to one of its raw ids
is the component's position. -/
theorem label_of_comp_mem (comps : List (List Node)) (hdisj : CompsDisjoint comps)
    (t : Tag) (i k : Nat) (hk : k < comps.length) (hmem : (t, i) ∈ comps.get ⟨k, hk⟩) :
    create_dataframe_from_grouped_ids (comps.map (get_ids_from_nodes t)) i = some k := by
  have hklen : k < (comps.map (get_ids_from_nodes t)).length := by simpa using hk
  refine create_dataframe_unique_group _ i k hklen ?_ ?_
  · rw [List.get_eq_getElem, List.getElem_map]
    refine (mem_get_ids_from_nodes t _ i).mpr ?_
    rw [List.get_eq_getElem] at hmem
    exact hmem
  · intro j hj hjk hmem'
    have hjlen : j < comps.length := by simpa using hj
    rw [List.get_eq_getElem, List.getElem_map] at hmem'
    have hmem'' : (t, i) ∈ comps[j] := (mem_get_ids_from_nodes t _ i).mp hmem'
    rw [List.get_eq_getElem] at hmem
    have hdisj' := List.pairwise_iff_get.mp hdisj
    rcases Nat.lt_or_ge j k with hlt | hge
    · exact hdisj' ⟨j, hjlen⟩ ⟨k, hk⟩ hlt (t, i) (by simpa using hmem'') (by simpa using hmem)
    · have hlt : k < j := by omega
      exact hdisj' ⟨k, hk⟩ ⟨j, hjlen⟩ hlt (t, i) (by simpa using hmem) (by simpa using hmem'')

/-- Two tagged ids in one component get equal labels through their
respective source projections. -/
theorem labels_eq_of_sameComp {G : Graph} {t1 t2 : Tag} {a b : Nat}
    (h : SameComp (componentsList G) (t1, a) (t2, b)) :
    create_dataframe_from_grouped_ids
        ((componentsList G).map (get_ids_from_nodes t1)) a =
      create_dataframe_from_grouped_ids
        ((componentsList G).map (get_ids_from_nodes t2)) b := by
  rcases h with ⟨c, hc, ha, hb⟩
  rcases List.mem_iff_get.mp hc with ⟨⟨k, hk⟩, hget⟩
  have hdisj := componentsList_disjoint G
  rw [label_of_comp_mem (componentsList G) hdisj t1 a k hk (by rw [hget]; exact ha)]
  rw [label_of_comp_mem (componentsList G) hdisj t2 b k hk (by rw [hget]; exact hb)]

/-! ### Claim theorems -/

/-- **C1** (cross-source consistency): for any two raw identifiers
`('h', a)` and `('c', b)` connected by a path of edges in the identity
graph, the individual label assigned to `a` through the H projection
equals the individual label assigned to `b` through the C projection; in
particular the `Subject Unique Identifier` label merged onto the HMIS
table for `a` equals the `Clientid` label merged onto the Connecting
Point table for `b`. -/
theorem cross_source_label_consistency (I : Inputs) (a b : Nat)
    (h : Conn (G_individuals I).edges (Tag.h, a) (Tag.c, b)) :
    hmis_individuals_df I a = cp_individuals_df I b ∧
      ∀ ho ∈ (get_client_family_ids I).1, ho.row.subjectId = a →
        ∀ co ∈ (get_client_family_ids I).2, co.row.clientid = b →
          ho.subjectLabel = co.clientidLabel := by
  have hx : (Tag.h, a) ∈ (G_individuals I).nodes := by
    rcases Relation.ReflTransGen.cases_head h with heq | ⟨z, hadj, _⟩
    · exact absurd (congrArg Prod.fst heq) (by simp)
    · rcases hadj with hmem | hmem
      · exact ((G_individuals_WF I) _ hmem).1
      · exact ((G_individuals_WF I) _ hmem).2
  have hsame := componentsList_complete _ (G_individuals_WF I) hx h
  have hmain : hmis_individuals_df I a = cp_individuals_df I b :=
    labels_eq_of_sameComp hsame
  refine ⟨hmain, ?_⟩
  intro ho hho hha co hco hcb
  rcases List.mem_map.mp hho with ⟨r, _hr, rfl⟩
  rcases List.mem_map.mp hco with ⟨s, _hs, rfl⟩
  show hmis_individuals_df I r.subjectId = cp_individuals_df I s.clientid
  rw [show r.subjectId = a from hha, show s.clientid = b from hcb]
  exact hmain

/-- A five-table input exercising C1: one HMIS record with raw id 1, one
Connecting Point record with raw id 2, and one cross-source match row
linking them. -/
def exInputC1 : Inputs :=
  ⟨[⟨1, none, none, none⟩], [⟨2, none, none⟩], [], [],
   [⟨some 2, some 1, []⟩]⟩

theorem cross_source_label_consistency_witness :
    Conn (G_individuals exInputC1).edges (Tag.h, 1) (Tag.c, 2) ∧
      hmis_individuals_df exInputC1 1 = cp_individuals_df exInputC1 2 := by
  have hconn : Conn (G_individuals exInputC1).edges (Tag.h, 1) (Tag.c, 2) :=
    Relation.ReflTransGen.single (Or.inr (by decide))
  exact ⟨hconn, (cross_source_label_consistency exInputC1 1 2 hconn).1⟩

/-- **C2** (monotonic refinement): every edge of the identity graph is an
edge of the family graph, and any two nodes sharing an identity-graph
component share a family-graph component. -/
theorem monotonic_refinement (I : Inputs) :
    (∀ e ∈ (G_individuals I).edges, e ∈ (G_families I).edges) ∧
      ∀ c ∈ componentsList (G_individuals I), ∀ x ∈ c, ∀ y ∈ c,
        ∃ d ∈ componentsList (G_families I), x ∈ d ∧ y ∈ d := by
  refine ⟨G_individuals_edges_subset I, ?_⟩
  intro c hc x hx y hy
  have hconn : Conn (G_individuals I).edges x y :=
    componentsList_sound (G_individuals I) c hc x hx y hy
  have hxnodes : x ∈ (G_individuals I).nodes :=
    (componentsList_cover (G_individuals I) x).mp ⟨c, hc, hx⟩
  have hconn' : Conn (G_families I).edges x y :=
    conn_mono (G_individuals_edges_subset I) hconn
  have hxnodes' : x ∈ (G_families I).nodes := G_individuals_nodes_subset I x hxnodes
  exact componentsList_complete _ (G_families_WF I) hxnodes' hconn'

/-- **C7** (partition property): for both the identity graph and the
family graph, the connected components cover the whole vertex set and are
pairwise disjoint. -/
theorem components_partition (I : Inputs) :
    ((∀ x, (∃ c ∈ componentsList (G_individuals I), x ∈ c) ↔
        x ∈ (G_individuals I).nodes) ∧
      List.Pairwise (fun c d => ∀ x, x ∈ c → x ∉ d)
        (componentsList (G_individuals I))) ∧
    ((∀ x, (∃ c ∈ componentsList (G_families I), x ∈ c) ↔
        x ∈ (G_families I).nodes) ∧
      List.Pairwise (fun c d => ∀ x, x ∈ c → x ∉ d)
        (componentsList (G_families I))) :=
  ⟨⟨fun x => componentsList_cover _ x, componentsList_disjoint _⟩,
   ⟨fun x => componentsList_cover _ x, componentsList_disjoint _⟩⟩

/-- **C3** (counterexample): on a projection list in which raw id 1 occurs
in two groups, the materializer does not abort: the Python dict
comprehension silently keeps the last binding, so it produces a labeled
output mapping 1 to the later group's position. -/
theorem materializer_duplicate_no_abort_cex :
    create_dataframe_from_grouped_ids [[1], [1]] 1 = some 1 := by
  decide

/-- **C3** (amended): the materializer never aborts; a raw identifier is
mapped to the position of the *last* group containing it (so an identifier
appearing in exactly one group is mapped to that group's position — the
second half of the claim — while a duplicated identifier is silently
resolved to the later group instead of raising an error). -/
theorem materializer_label_assignment (grouped_ids : List (List Nat)) (i k : Nat)
    (hk : k < grouped_ids.length) (hmem : i ∈ grouped_ids.get ⟨k, hk⟩)
    (hlast : ∀ j (hj : j < grouped_ids.length), k < j → i ∉ grouped_ids.get ⟨j, hj⟩) :
    create_dataframe_from_grouped_ids grouped_ids i = some k :=
  create_dataframe_last_group grouped_ids i k hk hmem hlast

theorem materializer_label_assignment_witness :
    create_dataframe_from_grouped_ids [[1], [2, 3]] 3 = some 1 :=
  materializer_label_assignment [[1], [2, 3]] 3 1 (by decide) (by decide)
    (fun j hj hkj => absurd hkj (by simp only [List.length_cons, List.length_nil] at hj; omega))

/-- **C4**: for a duplicate-candidate table, (a) the cleaned row set is
exactly the rows with both the match-set id and the raw identifier
present, (b) the edge list is exactly every (ordered) pair of raw
identifiers sharing a match-set id — including self-pairs — tagged with
the source tag, and (c) the self-loops among the produced edges do not
change which nodes are connected to which nodes. -/
theorem group_edges_characterisation {K : Type} [DecidableEq K] (tag : Tag)
    (df : List (Option K × Option Nat)) :
    (∀ k i, (k, i) ∈ cleaned_groups df ↔ (some k, some i) ∈ df) ∧
    (∀ e, e ∈ group_edges tag df ↔
      ∃ k x y, (k, x) ∈ cleaned_groups df ∧ (k, y) ∈ cleaned_groups df ∧
        e = ((tag, x), (tag, y))) ∧
    (∀ u v, Conn (group_edges tag df) u v ↔
      Conn ((group_edges tag df).filter (fun e => decide (e.1 ≠ e.2))) u v) :=
  ⟨fun k i => mem_cleaned_groups df k i,
   fun e => mem_group_edges tag df e,
   fun u v => conn_filter_selfloops _ u v⟩

/-- **C5**: the appended flags are, per row: `With Child?` (`With Adult?`)
iff some row sharing the full grouping key is a child (adult);
`With Family? = With Child? && With Adult?`; and `Family?` iff some row
sharing the family label belongs to a raw group containing both a child
and an adult — so a family label spanning several grouping-key values is
flagged as soon as any one raw group qualifies. -/
theorem family_characteristics_spec {K L : Type} [DecidableEq K] [DecidableEq L]
    (df : List (FamRow K L)) (r : FamRow K L) (flags : Bool × Bool × Bool × Bool)
    (h : (r, flags) ∈ generate_family_characteristics df) :
    (flags.1 = true ↔ ∃ s ∈ df, s.key = r.key ∧ s.childQ = true) ∧
    (flags.2.1 = true ↔ ∃ s ∈ df, s.key = r.key ∧ s.adultQ = true) ∧
    flags.2.2.1 = (flags.1 && flags.2.1) ∧
    (flags.2.2.2 = true ↔ ∃ s ∈ df, s.famLabel = r.famLabel ∧
      (∃ c ∈ df, c.key = s.key ∧ c.childQ = true) ∧
      (∃ a ∈ df, a.key = s.key ∧ a.adultQ = true)) := by
  rcases List.mem_map.mp h with ⟨r', hr', heq⟩
  have h1 : r' = r := congrArg Prod.fst heq
  subst h1
  have h2 := congrArg Prod.snd heq
  subst h2
  refine ⟨?_, ?_, rfl, ?_⟩
  · simp only [withChildCol, List.any_eq_true, List.mem_filter, decide_eq_true_eq]
    constructor
    · rintro ⟨s, ⟨hs, hkey⟩, hchild⟩
      exact ⟨s, hs, hkey, hchild⟩
    · rintro ⟨s, hs, hkey, hchild⟩
      exact ⟨s, ⟨hs, hkey⟩, hchild⟩
  · simp only [withAdultCol, List.any_eq_true, List.mem_filter, decide_eq_true_eq]
    constructor
    · rintro ⟨s, ⟨hs, hkey⟩, hadult⟩
      exact ⟨s, hs, hkey, hadult⟩
    · rintro ⟨s, hs, hkey, hadult⟩
      exact ⟨s, ⟨hs, hkey⟩, hadult⟩
  · simp only [familyCol, withFamilyCol, withChildCol, withAdultCol,
      List.any_eq_true, List.mem_filter, decide_eq_true_eq, Bool.and_eq_true]
    constructor
    · rintro ⟨s, ⟨hs, hlab⟩, hc, ha⟩
      rcases hc with ⟨c, ⟨hcdf, hckey⟩, hcq⟩
      rcases ha with ⟨a2, ⟨hadf, hakey⟩, haq⟩
      exact ⟨s, hs, hlab, ⟨c, hcdf, hckey, hcq⟩, ⟨a2, hadf, hakey, haq⟩⟩
    · rintro ⟨s, hs, hlab, ⟨c, hcdf, hckey, hcq⟩, ⟨a2, hadf, hakey, haq⟩⟩
      exact ⟨s, ⟨hs, hlab⟩, ⟨c, ⟨hcdf, hckey⟩, hcq⟩, ⟨a2, ⟨hadf, hakey⟩, haq⟩⟩

/-- Three rows sharing family label 7: raw group 0 has a child and an
adult, raw group 1 has only a child. -/
def exFamDf : List (FamRow Nat Nat) :=
  [⟨0, 7, true, false⟩, ⟨0, 7, false, true⟩, ⟨1, 7, true, false⟩]

theorem family_characteristics_spec_witness :
    (⟨1, 7, true, false⟩, (true, false, false, true)) ∈
        generate_family_characteristics exFamDf ∧
      ((true : Bool) = true ↔ ∃ s ∈ exFamDf, s.famLabel = (7 : Nat) ∧
        (∃ c ∈ exFamDf, c.key = s.key ∧ c.childQ = true) ∧
        (∃ a ∈ exFamDf, a.key = s.key ∧ a.adultQ = true)) :=
  ⟨by decide, (family_characteristics_spec exFamDf ⟨1, 7, true, false⟩
      (true, false, false, true) (by decide)).2.2.2⟩

theorem mem_nodes_add_edges_from {G : Graph} {es : List (Node × Node)} {x : Node}
    (h : x ∈ G.nodes) : x ∈ (G.add_edges_from es).nodes :=
  List.mem_append_left _ (List.mem_append_left _ h)

/-- **C6** (counterexample): with empty record tables but one HMIS
duplicate-candidate row carrying raw id 5, the identity graph still gets
the vertex `('h', 5)` (networkx `add_edges_from` inserts edge endpoints),
so the vertex set is not the union of the record-table identifiers. -/
theorem identity_graph_vertex_not_from_records_cex :
    (Tag.h, 5) ∈ (G_individuals ⟨[], [], [(some 1, some 5)], [], []⟩).nodes := by
  decide

/-- **C6** (amended): the identity graph's vertex set is the union of the
tagged raw identifiers of both record tables *and* the endpoints of the
evidence edges; in particular it contains every record-table identifier,
and a record-table identifier incident to no edge forms a singleton
component. -/
theorem identity_graph_vertex_set (I : Inputs) :
    (∀ r ∈ I.hmis, (Tag.h, r.subjectId) ∈ (G_individuals I).nodes) ∧
    (∀ r ∈ I.cp, (Tag.c, r.clientid) ∈ (G_individuals I).nodes) ∧
    (∀ x ∈ (G_individuals I).nodes,
      (∃ r ∈ I.hmis, x = (Tag.h, r.subjectId)) ∨
      (∃ r ∈ I.cp, x = (Tag.c, r.clientid)) ∨
      (∃ e ∈ (G_individuals I).edges, x = e.1 ∨ x = e.2)) ∧
    (∀ x ∈ (G_individuals I).nodes,
      (∀ e ∈ (G_individuals I).edges, e.1 ≠ x ∧ e.2 ≠ x) →
      ∃ c ∈ componentsList (G_individuals I), x ∈ c ∧ ∀ y ∈ c, y = x) := by
  refine ⟨?_, ?_, ?_, ?_⟩
  · intro r hr
    refine mem_nodes_add_edges_from (mem_nodes_add_edges_from (mem_nodes_add_edges_from ?_))
    show (Tag.h, r.subjectId) ∈ ([] : List Node) ++ _ ++ _
    rw [List.nil_append]
    exact List.mem_append_left _ (List.mem_map.mpr ⟨r, hr, rfl⟩)
  · intro r hr
    refine mem_nodes_add_edges_from (mem_nodes_add_edges_from (mem_nodes_add_edges_from ?_))
    show (Tag.c, r.clientid) ∈ ([] : List Node) ++ _ ++ _
    rw [List.nil_append]
    exact List.mem_append_right _ (List.mem_map.mpr ⟨r, hr, rfl⟩)
  · intro x hx
    simp only [G_individuals, Graph.add_edges_from, Graph.add_nodes_from, Graph.empty,
      List.nil_append, List.mem_append, List.mem_map] at hx
    have hedge : ∀ e : Node × Node, e ∈ group_edges Tag.h I.hmis_dup ∨
        e ∈ group_edges Tag.c I.cp_dup ∨ e ∈ matching_edges I.matching →
        e ∈ (G_individuals I).edges := by
      intro e he
      simp only [G_individuals, Graph.add_edges_from, Graph.add_nodes_from, Graph.empty,
        List.mem_append, List.not_mem_nil, false_or]
      tauto
    rcases hx with ((((((hx | hx) | hx) | hx) | hx) | hx) | hx) | hx
    · rcases hx with ⟨r, hr, heq⟩
      exact Or.inl ⟨r, hr, heq.symm⟩
    · rcases hx with ⟨r, hr, heq⟩
      exact Or.inr (Or.inl ⟨r, hr, heq.symm⟩)
    · rcases hx with ⟨e, he, heq⟩
      exact Or.inr (Or.inr ⟨e, hedge e (Or.inl he), Or.inl heq.symm⟩)
    · rcases hx with ⟨e, he, heq⟩
      exact Or.inr (Or.inr ⟨e, hedge e (Or.inl he), Or.inr heq.symm⟩)
    · rcases hx with ⟨e, he, heq⟩
      exact Or.inr (Or.inr ⟨e, hedge e (Or.inr (Or.inl he)), Or.inl heq.symm⟩)
    · rcases hx with ⟨e, he, heq⟩
      exact Or.inr (Or.inr ⟨e, hedge e (Or.inr (Or.inl he)), Or.inr heq.symm⟩)
    · rcases hx with ⟨e, he, heq⟩
      exact Or.inr (Or.inr ⟨e, hedge e (Or.inr (Or.inr he)), Or.inl heq.symm⟩)
    · rcases hx with ⟨e, he, heq⟩
      exact Or.inr (Or.inr ⟨e, hedge e (Or.inr (Or.inr he)), Or.inr heq.symm⟩)
  · intro x hx hiso
    exact componentsList_isolated (G_individuals I) x hx hiso

/-- **C8**: the label merges of `get_client_family_ids` are per-row left
joins on the raw identifier: the output keeps the input's row count and
row order, every pre-existing column (the whole original row) is
unchanged, and a row whose raw identifier is absent from the label
mapping gets a null label. -/
theorem label_merge_left_join (I : Inputs) (rows : List HRow) (crows : List CRow)
    (ind fam : Nat → Option Nat) :
    (get_client_family_ids I).1 =
        merge_hmis_labels I.hmis (hmis_individuals_df I) (hmis_families_df I) ∧
    (get_client_family_ids I).2 =
        merge_cp_labels I.cp (cp_individuals_df I) (cp_families_df I) ∧
    (merge_hmis_labels rows ind fam).length = rows.length ∧
    (merge_hmis_labels rows ind fam).map HOut.row = rows ∧
    (merge_cp_labels crows ind fam).length = crows.length ∧
    (merge_cp_labels crows ind fam).map COut.row = crows ∧
    (∀ i (hi : i < (merge_hmis_labels rows ind fam).length) (hi' : i < rows.length),
      ((merge_hmis_labels rows ind fam).get ⟨i, hi⟩).row = rows.get ⟨i, hi'⟩ ∧
      ((merge_hmis_labels rows ind fam).get ⟨i, hi⟩).subjectLabel =
        ind (rows.get ⟨i, hi'⟩).subjectId ∧
      (ind (rows.get ⟨i, hi'⟩).subjectId = none →
        ((merge_hmis_labels rows ind fam).get ⟨i, hi⟩).subjectLabel = none) ∧
      ((merge_hmis_labels rows ind fam).get ⟨i, hi⟩).familyLabel =
        fam (rows.get ⟨i, hi'⟩).subjectId) ∧
    (∀ i (hi : i < (merge_cp_labels crows ind fam).length) (hi' : i < crows.length),
      ((merge_cp_labels crows ind fam).get ⟨i, hi⟩).row = crows.get ⟨i, hi'⟩ ∧
      ((merge_cp_labels crows ind fam).get ⟨i, hi⟩).clientidLabel =
        ind (crows.get ⟨i, hi'⟩).clientid ∧
      (ind (crows.get ⟨i, hi'⟩).clientid = none →
        ((merge_cp_labels crows ind fam).get ⟨i, hi⟩).clientidLabel = none) ∧
      ((merge_cp_labels crows ind fam).get ⟨i, hi⟩).familyidLabel =
        fam (crows.get ⟨i, hi'⟩).clientid) := by
  refine ⟨rfl, rfl, by simp [merge_hmis_labels],
    by simp [merge_hmis_labels, Function.comp_def], by simp [merge_cp_labels],
    by simp [merge_cp_labels, Function.comp_def], ?_, ?_⟩
  · intro i hi hi'
    simp [merge_hmis_labels]
  · intro i hi hi'
    simp [merge_cp_labels]

/-- **C9** (counterexample): a match row whose two identifier columns are
both present is nonetheless discarded when one of the CSV's *other*
columns is missing, because `dropna()` runs on the whole frame before the
two identifier columns are selected. -/
theorem matching_edges_drops_complete_id_row_cex :
    matching_edges [⟨some 1, some 2, [none]⟩] = [] := by
  decide

/-- **C9** (amended): a match row is discarded exactly when *any* of its
columns (either identifier column or any other column) has a missing
value; every fully-complete row becomes one edge between the tagged C
identifier and the tagged H identifier. -/
theorem matching_edges_characterisation (ms : List MRow) (e : Node × Node) :
    e ∈ matching_edges ms ↔
      ∃ r ∈ ms, ∃ cid sid, r.clientid = some cid ∧ r.subjectId = some sid ∧
        r.others.all Option.isSome = true ∧ e = ((Tag.c, cid), (Tag.h, sid)) :=
  mem_matching_edges ms e

/-- **C10**: in both sources, `Adult?` is the boolean negation of
`Child?` (every record is exactly one of the two), and a record whose age
cannot be determined (missing program start date or DOB in HMIS, missing
age in Connecting Point) is classified `Child? = false`, `Adult? = true`
(a `NaN` comparison is `False` in pandas). -/
theorem child_adult_partition (ageFn : Int → Int → Int)
    (hmis : List HRow) (cp : List CRow) :
    (∀ p ∈ hmis_child_status ageFn hmis,
      p.2.2.2 = !p.2.2.1 ∧
      ((p.1.programStart = none ∨ p.1.dob = none) →
        p.2.2.1 = false ∧ p.2.2.2 = true)) ∧
    (∀ q ∈ cp_child_status cp,
      q.2.2 = !q.2.1 ∧ (q.1.age = none → q.2.1 = false ∧ q.2.2 = true)) := by
  constructor
  · intro p hp
    rcases List.mem_map.mp hp with ⟨r, _hr, rfl⟩
    refine ⟨rfl, ?_⟩
    intro hnone
    have hage : get_hmis_age_entered ageFn r.programStart r.dob = none := by
      rcases hnone with h1 | h1
      · have h1' : r.programStart = none := h1
        simp [get_hmis_age_entered, h1']
      · have h1' : r.dob = none := h1
        cases hps : r.programStart <;> simp [get_hmis_age_entered, h1', hps]
    show ltAdultAge (get_hmis_age_entered ageFn r.programStart r.dob) = false ∧
      (!ltAdultAge (get_hmis_age_entered ageFn r.programStart r.dob)) = true
    rw [hage]
    exact ⟨rfl, rfl⟩
  · intro q hq
    rcases List.mem_map.mp hq with ⟨r, _hr, rfl⟩
    refine ⟨rfl, ?_⟩
    intro hnone
    show ltAdultAge r.age = false ∧ (!ltAdultAge r.age) = true
    rw [hnone]
    exact ⟨rfl, rfl⟩

end Clean
